import Mathlib

/-!
Verification of the surface composition algorithm of flux-screensavers
(src/windows/src/surface.rs): the data model (Surface, MonitorHandle,
FillMode) and the operations merge, from_monitor(s), extend, fill and build,
embedded as pure Lean functions over unbounded integers.
-/

/-- Integer pixel position on the virtual desktop, origin at top-left
(winit PhysicalPosition with i32 fields, embedded over Int). -/
structure PhysicalPosition where
  x : Int
  y : Int
  deriving DecidableEq

/-- Size in physical pixels (winit PhysicalSize with u32 fields, embedded over Nat). -/
structure PhysicalSize where
  width : Nat
  height : Nat
  deriving DecidableEq

/-- A monitor as reported by the display enumeration layer
(winit_compat.rs MonitorHandle): position, size, DPI scale factor.
The scale factor is an f64 that the composer only ever copies, never computes
with; it is embedded as a rational number. -/
structure MonitorHandle where
  position : PhysicalPosition
  size : PhysicalSize
  scale_factor : Rat
  deriving DecidableEq

/-- A logical rendering target (surface.rs Surface). The wallpaper path is
opaque to the composer and embedded as an optional string. -/
structure Surface where
  position : PhysicalPosition
  size : PhysicalSize
  scale_factor : Rat
  wallpaper : Option String
  deriving DecidableEq

/-- Surface::merge from surface.rs: replace the accumulator's rectangle with the
axis-aligned bounding rectangle of the two operands, keeping the accumulator's
scale_factor and wallpaper. Rust mutates self in place; here the updated
accumulator is returned. i32::abs_diff is the absolute value of the Int
difference, a Nat. -/
def Surface.merge (a b : Surface) : Surface :=
  let top_left : PhysicalPosition :=
    ⟨min a.position.x b.position.x, min a.position.y b.position.y⟩
  let bottom_right : PhysicalPosition :=
    ⟨max (a.position.x + (a.size.width : Int)) (b.position.x + (b.size.width : Int)),
     max (a.position.y + (a.size.height : Int)) (b.position.y + (b.size.height : Int))⟩
  { a with
    position := top_left,
    size := ⟨(top_left.x - bottom_right.x).natAbs, (top_left.y - bottom_right.y).natAbs⟩ }

/-- Surface::from_monitor from surface.rs: copy the monitor's geometry and scale
factor and attach the given wallpaper. -/
def Surface.from_monitor (monitor : MonitorHandle) (wallpaper : Option String) : Surface :=
  { position := monitor.position
    size := monitor.size
    scale_factor := monitor.scale_factor
    wallpaper := wallpaper }

/-- from_monitors from surface.rs: map from_monitor over the monitor list. -/
def from_monitors (monitors : List (MonitorHandle × Option String)) : List Surface :=
  monitors.map fun p => Surface.from_monitor p.1 p.2

/-- The order used by Vec::sort on Surface: Ord on Surface compares positions,
and the derived Ord on winit PhysicalPosition is lexicographic on (x, y). -/
def posLE (a b : Surface) : Prop :=
  a.position.x < b.position.x ∨
    (a.position.x = b.position.x ∧ a.position.y ≤ b.position.y)

instance : DecidableRel posLE := fun a b =>
  decidable_of_iff
    (a.position.x < b.position.x ∨
      (a.position.x = b.position.x ∧ a.position.y ≤ b.position.y)) Iff.rfl

instance : IsTotal Surface posLE :=
  ⟨fun a b => by unfold posLE; omega⟩

instance : IsTrans Surface posLE :=
  ⟨fun a b c => by unfold posLE; omega⟩

/-- Vec::sort on a surface list: a stable sort by posLE. -/
def sortSurfaces (l : List Surface) : List Surface :=
  l.insertionSort posLE

/-- One step of the HashMap accumulation inside extend (surface.rs):
grouping.entry(surface.size).and_modify(merge with surface).or_insert(surface).
The hash map is embedded as an insertion-ordered association list with pairwise
distinct keys; a key is the size the inserted surface had on first insertion and
never changes, even when the accumulated value's size grows by merging. -/
def groupingStep (m : List (PhysicalSize × Surface)) (s : Surface) :
    List (PhysicalSize × Surface) :=
  if s.size ∈ m.map Prod.fst then
    m.map fun e => if e.1 = s.size then (e.1, e.2.merge s) else e
  else
    m ++ [(s.size, s)]

/-- extend from surface.rs (Span policy): fold the surfaces into the size-keyed
grouping map, collect the accumulated values, and sort them. -/
def extend (surfaces : List Surface) : List Surface :=
  sortSurfaces ((surfaces.foldl groupingStep []).map Prod.snd)

/-- fill from surface.rs (Fill policy): Iterator::reduce with merge — fold the
tail onto the head — yielding one surface, or none when the input is empty. -/
def fill (surfaces : List Surface) : List Surface :=
  match surfaces with
  | [] => []
  | h :: t => [t.foldl Surface.merge h]

/-- FillMode from config.rs. -/
inductive FillMode
  | None
  | Span
  | Fill
  deriving DecidableEq

/-- build from surface.rs: the surface composer. Turns each monitor into a
surface, then dispatches on the fill mode: None returns the surfaces as they
are, Span groups and merges same-size surfaces, Fill merges everything. -/
def build (monitors : List (MonitorHandle × Option String)) (fill_mode : FillMode) :
    List Surface :=
  let surfaces := from_monitors monitors
  match fill_mode with
  | FillMode.None => surfaces
  | FillMode.Span => extend surfaces
  | FillMode.Fill => fill surfaces

/-- Right edge of a surface, position.x + width, over unbounded integers. -/
def rightEdge (s : Surface) : Int :=
  s.position.x + (s.size.width : Int)

/-- Bottom edge of a surface, position.y + height, over unbounded integers. -/
def bottomEdge (s : Surface) : Int :=
  s.position.y + (s.size.height : Int)

/-- First occurrences of the elements of a list, in encounter order. -/
def firstOcc {α : Type _} [DecidableEq α] : List α → List α
  | [] => []
  | a :: t => a :: (firstOcc t).filter (fun b => decide (b ≠ a))

/-- The surface a Span group with size key k collapses to: the surfaces of size
exactly k, in encounter order, folded by merge starting from the first-seen one.
The value returned for an absent key is arbitrary and never used. -/
def spanGroupSpec (l : List Surface) (k : PhysicalSize) : Surface :=
  match l.filter (fun s => decide (s.size = k)) with
  | [] => { position := ⟨0, 0⟩, size := ⟨0, 0⟩, scale_factor := 1, wallpaper := Option.none }
  | h :: t => t.foldl Surface.merge h

example :
    extend
      [{ position := ⟨0, 0⟩, size := ⟨3360, 2100⟩, scale_factor := 1, wallpaper := Option.none },
       { position := ⟨3360, 0⟩, size := ⟨2560, 1440⟩, scale_factor := 1, wallpaper := Option.none }] =
      [{ position := ⟨0, 0⟩, size := ⟨3360, 2100⟩, scale_factor := 1, wallpaper := Option.none },
       { position := ⟨3360, 0⟩, size := ⟨2560, 1440⟩, scale_factor := 1, wallpaper := Option.none }] := by
  decide

example :
    fill
      [{ position := ⟨-500, 0⟩, size := ⟨1920, 1080⟩, scale_factor := 1, wallpaper := Option.none },
       { position := ⟨1420, 0⟩, size := ⟨2560, 1440⟩, scale_factor := 1, wallpaper := Option.none }] =
      [{ position := ⟨-500, 0⟩, size := ⟨4480, 1440⟩, scale_factor := 1, wallpaper := Option.none }] := by
  decide

/-! ### Componentwise behaviour of merge -/

theorem merge_position_x (a b : Surface) :
    (a.merge b).position.x = min a.position.x b.position.x := rfl

theorem merge_position_y (a b : Surface) :
    (a.merge b).position.y = min a.position.y b.position.y := rfl

theorem merge_scale_factor (a b : Surface) :
    (a.merge b).scale_factor = a.scale_factor := rfl

theorem merge_wallpaper (a b : Surface) :
    (a.merge b).wallpaper = a.wallpaper := rfl

theorem rightEdge_merge (a b : Surface) :
    rightEdge (a.merge b) = max (rightEdge a) (rightEdge b) := by
  simp only [rightEdge, Surface.merge]
  omega

theorem bottomEdge_merge (a b : Surface) :
    bottomEdge (a.merge b) = max (bottomEdge a) (bottomEdge b) := by
  simp only [bottomEdge, Surface.merge]
  omega

theorem merge_size_width (a b : Surface) :
    (a.merge b).size.width =
      (max (rightEdge a) (rightEdge b) - min a.position.x b.position.x).toNat := by
  simp only [rightEdge, Surface.merge]
  omega

theorem merge_size_height (a b : Surface) :
    (a.merge b).size.height =
      (max (bottomEdge a) (bottomEdge b) - min a.position.y b.position.y).toNat := by
  simp only [bottomEdge, Surface.merge]
  omega

theorem merge_width_pos (a b : Surface) (h : 0 < a.size.width) :
    0 < (a.merge b).size.width := by
  simp only [Surface.merge]
  omega

theorem merge_height_pos (a b : Surface) (h : 0 < a.size.height) :
    0 < (a.merge b).size.height := by
  simp only [Surface.merge]
  omega

/-! ### Folding merge over a list -/

theorem foldl_merge_scale_factor (t : List Surface) :
    ∀ a : Surface, (t.foldl Surface.merge a).scale_factor = a.scale_factor := by
  induction t with
  | nil => intro a; rfl
  | cons h t ih =>
    intro a
    simp only [List.foldl_cons]
    rw [ih, merge_scale_factor]

theorem foldl_merge_wallpaper (t : List Surface) :
    ∀ a : Surface, (t.foldl Surface.merge a).wallpaper = a.wallpaper := by
  induction t with
  | nil => intro a; rfl
  | cons h t ih =>
    intro a
    simp only [List.foldl_cons]
    rw [ih, merge_wallpaper]

theorem foldl_merge_width_pos (t : List Surface) :
    ∀ a : Surface, 0 < a.size.width → 0 < (t.foldl Surface.merge a).size.width := by
  induction t with
  | nil => intro a h; exact h
  | cons h t ih =>
    intro a ha
    simp only [List.foldl_cons]
    exact ih _ (merge_width_pos a h ha)

theorem foldl_merge_height_pos (t : List Surface) :
    ∀ a : Surface, 0 < a.size.height → 0 < (t.foldl Surface.merge a).size.height := by
  induction t with
  | nil => intro a h; exact h
  | cons h t ih =>
    intro a ha
    simp only [List.foldl_cons]
    exact ih _ (merge_height_pos a h ha)

theorem foldl_merge_pos_x (t : List Surface) :
    ∀ a : Surface, (t.foldl Surface.merge a).position.x =
      t.foldl (fun m s => min m s.position.x) a.position.x := by
  induction t with
  | nil => intro a; rfl
  | cons h t ih =>
    intro a
    simp only [List.foldl_cons]
    rw [ih, merge_position_x]

theorem foldl_merge_pos_y (t : List Surface) :
    ∀ a : Surface, (t.foldl Surface.merge a).position.y =
      t.foldl (fun m s => min m s.position.y) a.position.y := by
  induction t with
  | nil => intro a; rfl
  | cons h t ih =>
    intro a
    simp only [List.foldl_cons]
    rw [ih, merge_position_y]

theorem foldl_merge_rightEdge (t : List Surface) :
    ∀ a : Surface, rightEdge (t.foldl Surface.merge a) =
      t.foldl (fun m s => max m (rightEdge s)) (rightEdge a) := by
  induction t with
  | nil => intro a; rfl
  | cons h t ih =>
    intro a
    simp only [List.foldl_cons]
    rw [ih, rightEdge_merge]

theorem foldl_merge_bottomEdge (t : List Surface) :
    ∀ a : Surface, bottomEdge (t.foldl Surface.merge a) =
      t.foldl (fun m s => max m (bottomEdge s)) (bottomEdge a) := by
  induction t with
  | nil => intro a; rfl
  | cons h t ih =>
    intro a
    simp only [List.foldl_cons]
    rw [ih, bottomEdge_merge]

/-! ### Generic bounds for folded min and max over a projection -/

theorem foldl_min_le_init (f : Surface → Int) :
    ∀ (t : List Surface) (x : Int), t.foldl (fun m s => min m (f s)) x ≤ x := by
  intro t
  induction t with
  | nil => intro x; exact le_refl x
  | cons h t ih =>
    intro x
    simp only [List.foldl_cons]
    exact le_trans (ih (min x (f h))) (min_le_left _ _)

theorem foldl_min_le (f : Surface → Int) :
    ∀ (t : List Surface) (x : Int) (s : Surface), s ∈ t →
      t.foldl (fun m u => min m (f u)) x ≤ f s := by
  intro t
  induction t with
  | nil => intro x s hs; cases hs
  | cons h t ih =>
    intro x s hs
    simp only [List.foldl_cons]
    rcases List.mem_cons.mp hs with hs | hs
    · subst hs
      exact le_trans (foldl_min_le_init f t _) (min_le_right _ _)
    · exact ih _ s hs

theorem foldl_min_attain (f : Surface → Int) :
    ∀ (t : List Surface) (x : Int),
      t.foldl (fun m s => min m (f s)) x = x ∨
        ∃ s ∈ t, t.foldl (fun m u => min m (f u)) x = f s := by
  intro t
  induction t with
  | nil => intro x; exact Or.inl rfl
  | cons h t ih =>
    intro x
    simp only [List.foldl_cons]
    rcases ih (min x (f h)) with heq | ⟨s, hs, heq⟩
    · rcases le_total x (f h) with hle | hle
      · left; rw [heq]; exact min_eq_left hle
      · right
        exact ⟨h, List.mem_cons_self h t, by rw [heq]; exact min_eq_right hle⟩
    · exact Or.inr ⟨s, List.mem_cons_of_mem h hs, heq⟩

theorem foldl_max_ge_init (f : Surface → Int) :
    ∀ (t : List Surface) (x : Int), x ≤ t.foldl (fun m s => max m (f s)) x := by
  intro t
  induction t with
  | nil => intro x; exact le_refl x
  | cons h t ih =>
    intro x
    simp only [List.foldl_cons]
    exact le_trans (le_max_left _ _) (ih (max x (f h)))

theorem foldl_max_ge (f : Surface → Int) :
    ∀ (t : List Surface) (x : Int) (s : Surface), s ∈ t →
      f s ≤ t.foldl (fun m u => max m (f u)) x := by
  intro t
  induction t with
  | nil => intro x s hs; cases hs
  | cons h t ih =>
    intro x s hs
    simp only [List.foldl_cons]
    rcases List.mem_cons.mp hs with hs | hs
    · subst hs
      exact le_trans (le_max_right _ _) (foldl_max_ge_init f t _)
    · exact ih _ s hs

theorem foldl_max_attain (f : Surface → Int) :
    ∀ (t : List Surface) (x : Int),
      t.foldl (fun m s => max m (f s)) x = x ∨
        ∃ s ∈ t, t.foldl (fun m u => max m (f u)) x = f s := by
  intro t
  induction t with
  | nil => intro x; exact Or.inl rfl
  | cons h t ih =>
    intro x
    simp only [List.foldl_cons]
    rcases ih (max x (f h)) with heq | ⟨s, hs, heq⟩
    · rcases le_total x (f h) with hle | hle
      · right
        exact ⟨h, List.mem_cons_self h t, by rw [heq]; exact max_eq_right hle⟩
      · left; rw [heq]; exact max_eq_left hle
    · exact Or.inr ⟨s, List.mem_cons_of_mem h hs, heq⟩

/-! ### Sorting helpers -/

theorem sortSurfaces_sorted (l : List Surface) : List.Sorted posLE (sortSurfaces l) :=
  List.sorted_insertionSort posLE l

theorem sortSurfaces_perm (l : List Surface) : (sortSurfaces l).Perm l :=
  List.perm_insertionSort posLE l

/-- Reading an element of the None-policy output: build leaves from_monitors
untouched, so index i of the output is from_monitor of index i of the input. -/
theorem build_none_get (ms : List (MonitorHandle × Option String)) (i : Nat)
    (hi : i < (build ms FillMode.None).length) (hm : i < ms.length) :
    (build ms FillMode.None).get ⟨i, hi⟩ =
      Surface.from_monitor (ms.get ⟨i, hm⟩).1 (ms.get ⟨i, hm⟩).2 := by
  show (from_monitors ms).get ⟨i, hi⟩ = _
  simp [from_monitors, List.get_eq_getElem, List.getElem_map]

/-- C1: for a non-empty surface list, fill yields exactly one surface whose
position is the componentwise minimum of positions and whose right and bottom
edges are the componentwise maxima of position plus size — the tightest
axis-aligned bounding rectangle of all inputs; for the empty list it yields
the empty list. -/
theorem fill_bounding_box (l : List Surface) :
    (l = [] → fill l = []) ∧
    (l ≠ [] → ∃ u, fill l = [u] ∧
      (∀ s ∈ l, u.position.x ≤ s.position.x ∧ u.position.y ≤ s.position.y ∧
        rightEdge s ≤ rightEdge u ∧ bottomEdge s ≤ bottomEdge u) ∧
      (∃ s ∈ l, u.position.x = s.position.x) ∧
      (∃ s ∈ l, u.position.y = s.position.y) ∧
      (∃ s ∈ l, rightEdge u = rightEdge s) ∧
      (∃ s ∈ l, bottomEdge u = bottomEdge s)) := by
  constructor
  · intro h; subst h; rfl
  · intro hne
    match l with
    | [] => exact absurd rfl hne
    | a :: t =>
      refine ⟨t.foldl Surface.merge a, rfl, ?_, ?_, ?_, ?_, ?_⟩
      · intro s hs
        rcases List.mem_cons.mp hs with rfl | hs
        · refine ⟨?_, ?_, ?_, ?_⟩
          · rw [foldl_merge_pos_x]; exact foldl_min_le_init _ t _
          · rw [foldl_merge_pos_y]; exact foldl_min_le_init _ t _
          · rw [foldl_merge_rightEdge]; exact foldl_max_ge_init _ t _
          · rw [foldl_merge_bottomEdge]; exact foldl_max_ge_init _ t _
        · refine ⟨?_, ?_, ?_, ?_⟩
          · rw [foldl_merge_pos_x]; exact foldl_min_le _ t _ s hs
          · rw [foldl_merge_pos_y]; exact foldl_min_le _ t _ s hs
          · rw [foldl_merge_rightEdge]; exact foldl_max_ge _ t _ s hs
          · rw [foldl_merge_bottomEdge]; exact foldl_max_ge _ t _ s hs
      · rw [foldl_merge_pos_x]
        rcases foldl_min_attain (fun s => s.position.x) t a.position.x with heq | ⟨s, hs, heq⟩
        · exact ⟨a, List.mem_cons_self a t, heq⟩
        · exact ⟨s, List.mem_cons_of_mem a hs, heq⟩
      · rw [foldl_merge_pos_y]
        rcases foldl_min_attain (fun s => s.position.y) t a.position.y with heq | ⟨s, hs, heq⟩
        · exact ⟨a, List.mem_cons_self a t, heq⟩
        · exact ⟨s, List.mem_cons_of_mem a hs, heq⟩
      · rw [foldl_merge_rightEdge]
        rcases foldl_max_attain rightEdge t (rightEdge a) with heq | ⟨s, hs, heq⟩
        · exact ⟨a, List.mem_cons_self a t, heq⟩
        · exact ⟨s, List.mem_cons_of_mem a hs, heq⟩
      · rw [foldl_merge_bottomEdge]
        rcases foldl_max_attain bottomEdge t (bottomEdge a) with heq | ⟨s, hs, heq⟩
        · exact ⟨a, List.mem_cons_self a t, heq⟩
        · exact ⟨s, List.mem_cons_of_mem a hs, heq⟩

/-- C1 witness: the bounding-box property instantiated on the two monitors of
the repository's own fill unit test. -/
theorem fill_bounding_box_witness :
    ([{ position := ⟨-500, 0⟩, size := ⟨1920, 1080⟩, scale_factor := 1, wallpaper := Option.none },
      { position := ⟨1420, 0⟩, size := ⟨2560, 1440⟩, scale_factor := 1, wallpaper := Option.none }] :
        List Surface) ≠ [] ∧
    (∃ u, fill
      [{ position := ⟨-500, 0⟩, size := ⟨1920, 1080⟩, scale_factor := 1, wallpaper := Option.none },
       { position := ⟨1420, 0⟩, size := ⟨2560, 1440⟩, scale_factor := 1, wallpaper := Option.none }] = [u] ∧
      (∀ s ∈ ([{ position := ⟨-500, 0⟩, size := ⟨1920, 1080⟩, scale_factor := 1, wallpaper := Option.none },
        { position := ⟨1420, 0⟩, size := ⟨2560, 1440⟩, scale_factor := 1, wallpaper := Option.none }] : List Surface),
        u.position.x ≤ s.position.x ∧ u.position.y ≤ s.position.y ∧
        rightEdge s ≤ rightEdge u ∧ bottomEdge s ≤ bottomEdge u) ∧
      (∃ s ∈ ([{ position := ⟨-500, 0⟩, size := ⟨1920, 1080⟩, scale_factor := 1, wallpaper := Option.none },
        { position := ⟨1420, 0⟩, size := ⟨2560, 1440⟩, scale_factor := 1, wallpaper := Option.none }] : List Surface),
        u.position.x = s.position.x) ∧
      (∃ s ∈ ([{ position := ⟨-500, 0⟩, size := ⟨1920, 1080⟩, scale_factor := 1, wallpaper := Option.none },
        { position := ⟨1420, 0⟩, size := ⟨2560, 1440⟩, scale_factor := 1, wallpaper := Option.none }] : List Surface),
        u.position.y = s.position.y) ∧
      (∃ s ∈ ([{ position := ⟨-500, 0⟩, size := ⟨1920, 1080⟩, scale_factor := 1, wallpaper := Option.none },
        { position := ⟨1420, 0⟩, size := ⟨2560, 1440⟩, scale_factor := 1, wallpaper := Option.none }] : List Surface),
        rightEdge u = rightEdge s) ∧
      (∃ s ∈ ([{ position := ⟨-500, 0⟩, size := ⟨1920, 1080⟩, scale_factor := 1, wallpaper := Option.none },
        { position := ⟨1420, 0⟩, size := ⟨2560, 1440⟩, scale_factor := 1, wallpaper := Option.none }] : List Surface),
        bottomEdge u = bottomEdge s)) :=
  ⟨by decide, (fill_bounding_box _).2 (by decide)⟩

theorem physPos_ext {p q : PhysicalPosition} (h1 : p.x = q.x) (h2 : p.y = q.y) : p = q := by
  cases p; cases q; cases h1; cases h2; rfl

theorem physSize_ext {p q : PhysicalSize} (h1 : p.width = q.width)
    (h2 : p.height = q.height) : p = q := by
  cases p; cases q; cases h1; cases h2; rfl

/-- C6: merge is associative and commutative on geometry — nested merges in
either association and merges in either argument order produce the same
position and the same size (scale factor and wallpaper are excluded). -/
theorem merge_bounding_assoc_comm (a b c : Surface) :
    ((a.merge b).merge c).position = (a.merge (b.merge c)).position ∧
    ((a.merge b).merge c).size = (a.merge (b.merge c)).size ∧
    (a.merge b).position = (b.merge a).position ∧
    (a.merge b).size = (b.merge a).size := by
  refine ⟨physPos_ext ?_ ?_, physSize_ext ?_ ?_, physPos_ext ?_ ?_, physSize_ext ?_ ?_⟩ <;>
    simp only [merge_position_x, merge_position_y, merge_size_width, merge_size_height,
      rightEdge_merge, bottomEdge_merge] <;> omega

/-- The grouping fold grows the map by at most one entry per surface. -/
theorem foldl_groupingStep_length (l : List Surface) :
    ∀ m : List (PhysicalSize × Surface),
      (l.foldl groupingStep m).length ≤ m.length + l.length := by
  induction l with
  | nil => intro m; simp
  | cons s t ih =>
    intro m
    simp only [List.foldl_cons, List.length_cons]
    refine le_trans (ih (groupingStep m s)) ?_
    unfold groupingStep
    by_cases hmem : s.size ∈ m.map Prod.fst
    · rw [if_pos hmem]; simp only [List.length_map]; omega
    · rw [if_neg hmem]; simp only [List.length_append, List.length_singleton]; omega

/-- C7: the composer is total — under every policy the empty monitor list
yields the empty surface list, and on any input the output is a well-formed
surface list no longer than the input. -/
theorem build_total :
    (∀ mode : FillMode, build [] mode = []) ∧
    (∀ (ms : List (MonitorHandle × Option String)) (mode : FillMode),
      (build ms mode).length ≤ ms.length) := by
  constructor
  · intro mode; cases mode <;> rfl
  · intro ms mode
    have hlen : (from_monitors ms).length = ms.length := by simp [from_monitors]
    cases mode with
    | None =>
      show (from_monitors ms).length ≤ ms.length
      exact le_of_eq hlen
    | Span =>
      show (extend (from_monitors ms)).length ≤ ms.length
      unfold extend
      rw [(sortSurfaces_perm _).length_eq, List.length_map]
      have h2 := foldl_groupingStep_length (from_monitors ms) []
      simp only [List.length_nil, Nat.zero_add] at h2
      omega
    | Fill =>
      show (fill (from_monitors ms)).length ≤ ms.length
      cases hm : from_monitors ms with
      | nil => simp [fill]
      | cons a t =>
        rw [hm] at hlen
        simp only [fill, List.length_singleton, List.length_cons, List.length_nil] at hlen ⊢
        omega

/-- C3 (amended): the composer's output is sorted ascending by position
(x primary, y secondary) under the Span and Fill policies; under None the
surfaces are returned in input order, with no sorting pass. -/
theorem build_output_ordering (ms : List (MonitorHandle × Option String)) :
    List.Sorted posLE (build ms FillMode.Span) ∧
    List.Sorted posLE (build ms FillMode.Fill) ∧
    build ms FillMode.None = from_monitors ms := by
  refine ⟨sortSurfaces_sorted _, ?_, rfl⟩
  cases hm : from_monitors ms with
  | nil =>
    have hb : build ms FillMode.Fill = fill (from_monitors ms) := rfl
    rw [hb, hm]
    exact List.sorted_nil
  | cons a t =>
    have hb : build ms FillMode.Fill = fill (from_monitors ms) := rfl
    rw [hb, hm]
    exact List.sorted_singleton _

/-- C3 counterexample: under the None policy the output is not sorted — two
monitors listed with the rightmost first come back in that same order. -/
theorem build_output_ordering_counterexample :
    ¬ List.Sorted posLE
      (build [({ position := ⟨1, 0⟩, size := ⟨5, 5⟩, scale_factor := 1 }, Option.none),
              ({ position := ⟨0, 0⟩, size := ⟨5, 5⟩, scale_factor := 1 }, Option.none)]
        FillMode.None) := by
  decide

/-- C4: under the None policy the output has one surface per input monitor, and
the surface at each index carries exactly the position, size, scale factor and
wallpaper of the monitor at the same index. -/
theorem build_none_identity (ms : List (MonitorHandle × Option String)) :
    (build ms FillMode.None).length = ms.length ∧
    ∀ i (hi : i < (build ms FillMode.None).length) (hm : i < ms.length),
      ((build ms FillMode.None).get ⟨i, hi⟩).position = (ms.get ⟨i, hm⟩).1.position ∧
      ((build ms FillMode.None).get ⟨i, hi⟩).size = (ms.get ⟨i, hm⟩).1.size ∧
      ((build ms FillMode.None).get ⟨i, hi⟩).scale_factor = (ms.get ⟨i, hm⟩).1.scale_factor ∧
      ((build ms FillMode.None).get ⟨i, hi⟩).wallpaper = (ms.get ⟨i, hm⟩).2 := by
  constructor
  · show (from_monitors ms).length = ms.length
    simp [from_monitors]
  · intro i hi hm
    rw [build_none_get ms i hi hm]
    exact ⟨rfl, rfl, rfl, rfl⟩

/-- C4 witness: the identity property read off at index 0 of a one-monitor
inventory. -/
theorem build_none_identity_witness :
    ((build [({ position := ⟨3, 4⟩, size := ⟨10, 20⟩, scale_factor := 2 }, Option.none)]
        FillMode.None).get ⟨0, by decide⟩).position =
      (([(({ position := ⟨3, 4⟩, size := ⟨10, 20⟩, scale_factor := 2 } : MonitorHandle),
          (Option.none : Option String))]).get ⟨0, by decide⟩).1.position ∧
    ((build [({ position := ⟨3, 4⟩, size := ⟨10, 20⟩, scale_factor := 2 }, Option.none)]
        FillMode.None).get ⟨0, by decide⟩).size =
      (([(({ position := ⟨3, 4⟩, size := ⟨10, 20⟩, scale_factor := 2 } : MonitorHandle),
          (Option.none : Option String))]).get ⟨0, by decide⟩).1.size ∧
    ((build [({ position := ⟨3, 4⟩, size := ⟨10, 20⟩, scale_factor := 2 }, Option.none)]
        FillMode.None).get ⟨0, by decide⟩).scale_factor =
      (([(({ position := ⟨3, 4⟩, size := ⟨10, 20⟩, scale_factor := 2 } : MonitorHandle),
          (Option.none : Option String))]).get ⟨0, by decide⟩).1.scale_factor ∧
    ((build [({ position := ⟨3, 4⟩, size := ⟨10, 20⟩, scale_factor := 2 }, Option.none)]
        FillMode.None).get ⟨0, by decide⟩).wallpaper =
      (([(({ position := ⟨3, 4⟩, size := ⟨10, 20⟩, scale_factor := 2 } : MonitorHandle),
          (Option.none : Option String))]).get ⟨0, by decide⟩).2 :=
  (build_none_identity _).2 0 (by decide) (by decide)

/-- C9: under the None policy the output surfaces appear in exactly the
encounter order of the input monitors — index i of the output is the surface
of index i of the input, with no reordering. -/
theorem build_none_encounter_order (ms : List (MonitorHandle × Option String)) :
    (build ms FillMode.None).length = ms.length ∧
    ∀ i (hi : i < (build ms FillMode.None).length) (hm : i < ms.length),
      (build ms FillMode.None).get ⟨i, hi⟩ =
        Surface.from_monitor (ms.get ⟨i, hm⟩).1 (ms.get ⟨i, hm⟩).2 :=
  ⟨by show (from_monitors ms).length = ms.length; simp [from_monitors],
   fun i hi hm => build_none_get ms i hi hm⟩

/-- C9 witness: with the rightmost monitor listed first, index 1 of the output
is still the second monitor of the input. -/
theorem build_none_encounter_order_witness :
    (build [({ position := ⟨9, 9⟩, size := ⟨1, 1⟩, scale_factor := 1 }, Option.none),
            ({ position := ⟨0, 0⟩, size := ⟨2, 2⟩, scale_factor := 1 }, Option.none)]
      FillMode.None).get ⟨1, by decide⟩ =
      Surface.from_monitor
        (([(({ position := ⟨9, 9⟩, size := ⟨1, 1⟩, scale_factor := 1 } : MonitorHandle),
            (Option.none : Option String)),
           (({ position := ⟨0, 0⟩, size := ⟨2, 2⟩, scale_factor := 1 } : MonitorHandle),
            (Option.none : Option String))]).get ⟨1, by decide⟩).1
        (([(({ position := ⟨9, 9⟩, size := ⟨1, 1⟩, scale_factor := 1 } : MonitorHandle),
            (Option.none : Option String)),
           (({ position := ⟨0, 0⟩, size := ⟨2, 2⟩, scale_factor := 1 } : MonitorHandle),
            (Option.none : Option String))]).get ⟨1, by decide⟩).2 :=
  (build_none_encounter_order _).2 1 (by decide) (by decide)

/-! ### Closed form of the Span grouping fold -/

theorem groupingStep_pos {m : List (PhysicalSize × Surface)} {s : Surface}
    (h : s.size ∈ m.map Prod.fst) :
    groupingStep m s = m.map fun e => if e.1 = s.size then (e.1, e.2.merge s) else e := by
  unfold groupingStep; rw [if_pos h]

theorem groupingStep_neg {m : List (PhysicalSize × Surface)} {s : Surface}
    (h : s.size ∉ m.map Prod.fst) :
    groupingStep m s = m ++ [(s.size, s)] := by
  unfold groupingStep; rw [if_neg h]

theorem keys_map_upd (m : List (PhysicalSize × Surface)) (s : Surface) :
    (m.map fun e => if e.1 = s.size then (e.1, e.2.merge s) else e).map Prod.fst =
      m.map Prod.fst := by
  rw [List.map_map]
  apply List.map_congr_left
  intro e he
  by_cases h : e.1 = s.size <;> simp [Function.comp, h]

theorem keys_nodup_append {m : List (PhysicalSize × Surface)} {s : Surface}
    (hm : (m.map Prod.fst).Nodup) (hmem : s.size ∉ m.map Prod.fst) :
    ((m ++ [(s.size, s)]).map Prod.fst).Nodup := by
  rw [List.map_append]
  simp [List.nodup_append, hm, hmem]

theorem spanGroupSpec_cons_ne {k : PhysicalSize} {s : Surface} (t : List Surface)
    (h : k ≠ s.size) : spanGroupSpec (s :: t) k = spanGroupSpec t k := by
  unfold spanGroupSpec
  rw [List.filter_cons,
    if_neg (by simp only [decide_eq_true_eq]; exact fun hh => h hh.symm)]

theorem spanGroupSpec_cons_self (s : Surface) (t : List Surface) :
    spanGroupSpec (s :: t) s.size =
      (t.filter fun u => decide (u.size = s.size)).foldl Surface.merge s := by
  unfold spanGroupSpec
  rw [List.filter_cons, if_pos (by simp)]

/-- Closed form of the grouping fold: starting from a map with distinct keys,
each existing entry absorbs (by merge, in encounter order) exactly the incoming
surfaces whose size equals its key, and the remaining surfaces create one entry
per first-seen new size, holding the merge-fold of all surfaces of that size. -/
theorem foldl_groupingStep_closed (l : List Surface) :
    ∀ m : List (PhysicalSize × Surface), (m.map Prod.fst).Nodup →
      l.foldl groupingStep m =
        (m.map fun e =>
          (e.1, (l.filter fun u => decide (u.size = e.1)).foldl Surface.merge e.2)) ++
        (((firstOcc (l.map fun s => s.size)).filter fun k =>
          decide (k ∉ m.map Prod.fst)).map fun k => (k, spanGroupSpec l k)) := by
  induction l with
  | nil =>
    intro m hm
    simp [firstOcc]
  | cons s t ih =>
    intro m hm
    rw [List.foldl_cons]
    by_cases hmem : s.size ∈ m.map Prod.fst
    · rw [groupingStep_pos hmem]
      have hnod : ((m.map fun e => if e.1 = s.size then (e.1, e.2.merge s) else e).map
          Prod.fst).Nodup := by
        rw [keys_map_upd]; exact hm
      rw [ih _ hnod, keys_map_upd]
      congr 1
      · rw [List.map_map]
        apply List.map_congr_left
        intro e he
        simp only [Function.comp_apply]
        by_cases h1 : e.1 = s.size
        · rw [if_pos h1]
          dsimp only
          rw [List.filter_cons, if_pos (by simp [h1]), List.foldl_cons]
        · rw [if_neg h1]
          rw [List.filter_cons,
            if_neg (by simp only [decide_eq_true_eq]; exact fun hh => h1 hh.symm)]
      · simp only [List.map_cons, firstOcc]
        rw [List.filter_cons,
          if_neg (by simp only [decide_eq_true_eq, Decidable.not_not]; exact hmem)]
        rw [List.filter_filter]
        have hfilt : (firstOcc (t.map fun s => s.size)).filter
            (fun a => decide (a ∉ m.map Prod.fst) && decide (a ≠ s.size)) =
            (firstOcc (t.map fun s => s.size)).filter
              (fun k => decide (k ∉ m.map Prod.fst)) := by
          apply List.filter_congr
          intro x hx
          by_cases h1 : x ∈ m.map Prod.fst
          · simp [h1]
          · have hxne : x ≠ s.size := fun he => h1 (he ▸ hmem)
            simp [h1, hxne]
        rw [hfilt]
        apply List.map_congr_left
        intro k hk
        have hk2 := (List.mem_filter.mp hk).2
        have hkne : k ≠ s.size := by
          intro he
          exact (of_decide_eq_true hk2) (he ▸ hmem)
        rw [spanGroupSpec_cons_ne t hkne]
    · rw [groupingStep_neg hmem]
      have hnod := keys_nodup_append hm hmem
      rw [ih _ hnod, List.map_append, List.map_append]
      simp only [List.map_cons, List.map_nil, firstOcc]
      rw [List.append_assoc, List.singleton_append]
      rw [List.filter_cons, if_pos (by simp only [decide_eq_true_eq]; exact hmem)]
      congr 1
      · apply List.map_congr_left
        intro e he
        have hene : e.1 ≠ s.size := by
          intro hh
          exact hmem (hh ▸ List.mem_map_of_mem Prod.fst he)
        rw [List.filter_cons,
          if_neg (by simp only [decide_eq_true_eq]; exact fun hh => hene hh.symm)]
      · congr 1
        · dsimp only
          rw [spanGroupSpec_cons_self]
        · rw [List.filter_filter]
          have hfilt : (firstOcc (t.map fun s => s.size)).filter
              (fun k => decide (k ∉ (m.map Prod.fst ++ [s.size]))) =
              (firstOcc (t.map fun s => s.size)).filter
                (fun a => decide (a ∉ m.map Prod.fst) && decide (a ≠ s.size)) := by
            apply List.filter_congr
            intro x hx
            by_cases h1 : x = s.size
            · subst h1; simp [List.mem_append]
            · by_cases h2 : x ∈ m.map Prod.fst <;> simp [List.mem_append, h1, h2]
          rw [hfilt]
          apply List.map_congr_left
          intro k hk
          have hk2 := (List.mem_filter.mp hk).2
          simp only [Bool.and_eq_true, decide_eq_true_eq] at hk2
          rw [spanGroupSpec_cons_ne t hk2.2]

theorem grouping_closed (l : List Surface) :
    l.foldl groupingStep [] =
      (firstOcc (l.map fun s => s.size)).map fun k => (k, spanGroupSpec l k) := by
  have h := foldl_groupingStep_closed l [] (by simp)
  simpa using h

theorem extend_closed (l : List Surface) :
    extend l = sortSurfaces ((firstOcc (l.map fun s => s.size)).map (spanGroupSpec l)) := by
  unfold extend
  rw [grouping_closed, List.map_map]
  rfl

theorem mem_firstOcc {α : Type _} [DecidableEq α] :
    ∀ (l : List α) (a : α), a ∈ firstOcc l ↔ a ∈ l := by
  intro l
  induction l with
  | nil => intro a; simp [firstOcc]
  | cons b t ih =>
    intro a
    simp only [firstOcc, List.mem_cons, List.mem_filter, ih, decide_eq_true_eq]
    constructor
    · rintro (rfl | ⟨h1, h2⟩)
      · exact Or.inl rfl
      · exact Or.inr h1
    · rintro (rfl | h1)
      · exact Or.inl rfl
      · by_cases hba : a = b
        · exact Or.inl hba
        · exact Or.inr ⟨h1, hba⟩

theorem nodup_firstOcc {α : Type _} [DecidableEq α] : ∀ l : List α, (firstOcc l).Nodup := by
  intro l
  induction l with
  | nil => simp [firstOcc]
  | cons b t ih =>
    simp only [firstOcc, List.nodup_cons]
    constructor
    · intro hmem
      have := (List.mem_filter.mp hmem).2
      simp at this
    · exact ih.filter _

theorem length_firstOcc_toFinset {α : Type _} [DecidableEq α] (l : List α) :
    (firstOcc l).length = l.toFinset.card := by
  rw [← List.toFinset_card_of_nodup (nodup_firstOcc l)]
  congr 1
  ext a
  simp [List.mem_toFinset, mem_firstOcc]

/-- Every surface produced by extend is the merge-fold, in encounter order, of
exactly the input surfaces sharing one size, started from the first-seen one. -/
theorem extend_mem_char (l : List Surface) (u : Surface) (hu : u ∈ extend l) :
    ∃ hd tl, l.filter (fun v => decide (v.size = hd.size)) = hd :: tl ∧
      u = tl.foldl Surface.merge hd := by
  rw [extend_closed] at hu
  have hu2 : u ∈ (firstOcc (l.map fun s => s.size)).map (spanGroupSpec l) :=
    (sortSurfaces_perm _).mem_iff.mp hu
  rcases List.mem_map.mp hu2 with ⟨k, hk, rfl⟩
  have hkl : k ∈ l.map fun s => s.size := (mem_firstOcc _ k).mp hk
  rcases List.mem_map.mp hkl with ⟨s0, hs0, hks⟩
  have hmemf : s0 ∈ l.filter fun v => decide (v.size = k) :=
    List.mem_filter.mpr ⟨hs0, by simp [hks]⟩
  cases hf : l.filter fun v => decide (v.size = k) with
  | nil => rw [hf] at hmemf; cases hmemf
  | cons hd tl =>
    have hhd : hd.size = k := by
      have hmemhd : hd ∈ l.filter fun v => decide (v.size = k) := by
        rw [hf]; exact List.mem_cons_self hd tl
      exact of_decide_eq_true (List.mem_filter.mp hmemhd).2
    refine ⟨hd, tl, ?_, ?_⟩
    · rw [hhd]; exact hf
    · show spanGroupSpec l k = tl.foldl Surface.merge hd
      unfold spanGroupSpec
      rw [hf]

/-- C2: under the Span policy, surfaces are grouped by exact size only — the
output is, up to the final position sort, one surface per first-seen size, each
being the merge of all (and only) the monitors of that exact size, folded in
encounter order from the first-seen one. -/
theorem span_grouping (l : List Surface) :
    extend l = sortSurfaces ((firstOcc (l.map fun s => s.size)).map (spanGroupSpec l)) :=
  extend_closed l

/-- C10: under the Span policy the number of output surfaces is exactly the
number of distinct monitor sizes in the input. -/
theorem build_span_length (ms : List (MonitorHandle × Option String)) :
    (build ms FillMode.Span).length = (ms.map fun p => p.1.size).toFinset.card := by
  show (extend (from_monitors ms)).length = _
  rw [extend_closed]
  rw [show (sortSurfaces ((firstOcc ((from_monitors ms).map fun s => s.size)).map
      (spanGroupSpec (from_monitors ms)))).length =
      ((firstOcc ((from_monitors ms).map fun s => s.size)).map
        (spanGroupSpec (from_monitors ms))).length from (sortSurfaces_perm _).length_eq]
  have hmaps : ((from_monitors ms).map fun s => s.size) = ms.map fun p => p.1.size := by
    show ((ms.map fun p => Surface.from_monitor p.1 p.2).map fun s => s.size) =
      ms.map fun p => p.1.size
    rw [List.map_map]
    rfl
  rw [List.length_map, length_firstOcc_toFinset, hmaps]

/-- C5: merge changes only position and size — scale factor and wallpaper come
from the accumulator, and consequently every surface merged under Fill or Span
carries the scale factor and wallpaper of its group's first-seen monitor. -/
theorem merge_left_attribution :
    (∀ a b : Surface, (a.merge b).scale_factor = a.scale_factor ∧
      (a.merge b).wallpaper = a.wallpaper) ∧
    (∀ (a : Surface) (t : List Surface) (u : Surface), u ∈ fill (a :: t) →
      u.scale_factor = a.scale_factor ∧ u.wallpaper = a.wallpaper) ∧
    (∀ (l : List Surface) (u : Surface), u ∈ extend l →
      ∃ hd tl, l.filter (fun v => decide (v.size = hd.size)) = hd :: tl ∧
        u = tl.foldl Surface.merge hd ∧
        u.scale_factor = hd.scale_factor ∧ u.wallpaper = hd.wallpaper) := by
  refine ⟨fun a b => ⟨rfl, rfl⟩, ?_, ?_⟩
  · intro a t u hu
    have hu2 : u = t.foldl Surface.merge a := by simpa [fill] using hu
    subst hu2
    exact ⟨foldl_merge_scale_factor t a, foldl_merge_wallpaper t a⟩
  · intro l u hu
    rcases extend_mem_char l u hu with ⟨hd, tl, hf, hu2⟩
    subst hu2
    exact ⟨hd, tl, hf, rfl, foldl_merge_scale_factor tl hd, foldl_merge_wallpaper tl hd⟩

/-- C5 witness: two same-size monitors with different scale factors and
wallpapers merge under Span into a surface carrying the first-seen attributes. -/
theorem merge_left_attribution_witness :
    (⟨⟨0, 0⟩, ⟨30, 10⟩, 1, Option.some "wa"⟩ : Surface) ∈
      extend [⟨⟨0, 0⟩, ⟨10, 10⟩, 1, Option.some "wa"⟩,
              ⟨⟨20, 0⟩, ⟨10, 10⟩, 2, Option.some "wb"⟩] ∧
    (∃ hd tl,
      ([⟨⟨0, 0⟩, ⟨10, 10⟩, 1, Option.some "wa"⟩,
        ⟨⟨20, 0⟩, ⟨10, 10⟩, 2, Option.some "wb"⟩] : List Surface).filter
          (fun v => decide (v.size = hd.size)) = hd :: tl ∧
      (⟨⟨0, 0⟩, ⟨30, 10⟩, 1, Option.some "wa"⟩ : Surface) = tl.foldl Surface.merge hd ∧
      (⟨⟨0, 0⟩, ⟨30, 10⟩, 1, Option.some "wa"⟩ : Surface).scale_factor = hd.scale_factor ∧
      (⟨⟨0, 0⟩, ⟨30, 10⟩, 1, Option.some "wa"⟩ : Surface).wallpaper = hd.wallpaper) :=
  ⟨by decide, merge_left_attribution.2.2 _ _ (by decide)⟩

/-- C8 counterexample: a zero-size monitor flows through the None policy into a
zero-size output surface, so not every output surface has positive size. -/
theorem build_positive_size_counterexample :
    ((build [({ position := ⟨0, 0⟩, size := ⟨0, 0⟩, scale_factor := 1 }, Option.none)]
        FillMode.None).all fun u => decide (0 < u.size.width) && decide (0 < u.size.height))
      = false := by
  decide

/-- C8 (amended): when every input monitor has positive width and height, every
surface produced under every policy has positive width and height. -/
theorem build_positive_size (ms : List (MonitorHandle × Option String)) (mode : FillMode)
    (hpos : ∀ p ∈ ms, 0 < p.1.size.width ∧ 0 < p.1.size.height) :
    ∀ u ∈ build ms mode, 0 < u.size.width ∧ 0 < u.size.height := by
  have hsurf : ∀ s ∈ from_monitors ms, 0 < s.size.width ∧ 0 < s.size.height := by
    intro s hs
    rcases List.mem_map.mp hs with ⟨p, hp, rfl⟩
    exact hpos p hp
  intro u hu
  cases mode with
  | None => exact hsurf u hu
  | Span =>
    have hu2 : u ∈ extend (from_monitors ms) := hu
    rcases extend_mem_char _ u hu2 with ⟨hd, tl, hf, hu3⟩
    have hhd : hd ∈ from_monitors ms := by
      have hmemhd : hd ∈ (from_monitors ms).filter fun v => decide (v.size = hd.size) := by
        rw [hf]; exact List.mem_cons_self hd tl
      exact (List.mem_filter.mp hmemhd).1
    subst hu3
    exact ⟨foldl_merge_width_pos tl hd (hsurf hd hhd).1,
      foldl_merge_height_pos tl hd (hsurf hd hhd).2⟩
  | Fill =>
    have hu2 : u ∈ fill (from_monitors ms) := hu
    cases hm : from_monitors ms with
    | nil => rw [hm] at hu2; cases hu2
    | cons a t =>
      rw [hm] at hu2
      have hu3 : u = t.foldl Surface.merge a := by simpa [fill] using hu2
      subst hu3
      have ha : a ∈ from_monitors ms := by rw [hm]; exact List.mem_cons_self a t
      exact ⟨foldl_merge_width_pos t a (hsurf a ha).1,
        foldl_merge_height_pos t a (hsurf a ha).2⟩

/-- C8 witness: the positive-size invariant read off on a one-monitor input
under the Fill policy. -/
theorem build_positive_size_witness :
    0 < (Surface.mk ⟨0, 0⟩ ⟨7, 5⟩ 1 Option.none).size.width ∧
    0 < (Surface.mk ⟨0, 0⟩ ⟨7, 5⟩ 1 Option.none).size.height :=
  build_positive_size
    [({ position := ⟨0, 0⟩, size := ⟨7, 5⟩, scale_factor := 1 }, Option.none)]
    FillMode.Fill (by decide) (Surface.mk ⟨0, 0⟩ ⟨7, 5⟩ 1 Option.none) (by decide)
